import Mathlib

/-!
Verification of the history crate of DAC098/rust-lib.

The definitions below are shallow embeddings of the Rust sources:
* src/history/src/list/fixed/mod.rs   (struct Fixed and its iterator)
* src/history/src/list/fixed/sync.rs  (struct RwFixed, push only)
* src/history/src/list/varied.rs      (struct Varied)
* src/history/src/versioned/mod.rs    (struct Versioned)
* src/history/src/versioned/sync.rs   (struct RwVersioned, update only)

Rust arrays of size N become Lean lists whose length is tracked by the
well-formedness predicates; usize indices become Nat (no index in this
crate can come near 2^64, and debug Rust would panic rather than wrap on
overflow, so machine wraparound is not modelled except where a modulus
appears in the source).  Indexing with a possible panic is modelled with
Option-valued results where a claim depends on the panic.
-/

/-- Embedding of struct Fixed from src/history/src/list/fixed/mod.rs.
The Rust field list has type an array of N options; here it is a list and
the length N is carried by Fixed.WF. -/
structure Fixed (T : Type) (N : Nat) where
  list : List (Option T)
  next : Nat
  oldest : Nat
  stored : Nat
deriving Repr, DecidableEq

variable {T : Type} {N : Nat}

/-- Embedding of Fixed::new (mod.rs lines 20-27). -/
def Fixed.new : Fixed T N :=
  { list := List.replicate N none, next := 0, oldest := 0, stored := 0 }

/-- Embedding of Fixed::push (mod.rs lines 72-84).  The Rust statement
self.list[self.next].replace(v) returns the previous content of the slot
and stores some v there. -/
def Fixed.push (b : Fixed T N) (v : T) : Option T × Fixed T N :=
  let rtn := b.list.getD b.next none
  let list := b.list.set b.next (some v)
  let next := (b.next + 1) % N
  if b.stored = N then
    (rtn, { list := list, next := next, oldest := next, stored := b.stored })
  else
    (rtn, { list := list, next := next, oldest := b.oldest, stored := b.stored + 1 })

/-- Embedding of Fixed::pop (mod.rs lines 87-98). -/
def Fixed.pop (b : Fixed T N) : Option T × Fixed T N :=
  if b.stored = 0 then (none, b)
  else
    let rtn := b.list.getD b.oldest none
    (rtn, { list := b.list.set b.oldest none, next := b.next,
            oldest := (b.oldest + 1) % N, stored := b.stored - 1 })

/-- Embedding of Fixed::newest_index (mod.rs lines 101-107). -/
def Fixed.newest_index (b : Fixed T N) : Nat :=
  if b.next = 0 then N - 1 else b.next - 1

/-- Embedding of Fixed::newest (mod.rs lines 110-112); named newest_val
because the structure field namespace is shared with the Rust field names. -/
def Fixed.newest_val (b : Fixed T N) : Option T :=
  b.list.getD b.newest_index none

/-- Embedding of Fixed::oldest (mod.rs lines 115-117). -/
def Fixed.oldest_val (b : Fixed T N) : Option T :=
  b.list.getD b.oldest none

/-- Embedding of Fixed::get (mod.rs lines 127-143).  The Rust return type
Result of Option reference and unit error becomes Except Unit (Option T). -/
def Fixed.get (b : Fixed T N) (given : Nat) : Except Unit (Option T) :=
  if given ≥ N then .error ()
  else
    let index := b.newest_index
    let index := if index < given then N - (given - index) else index - given
    .ok (b.list.getD index none)

/-- Well-formedness of a Fixed state: the list has the declared length, the
cursors are in range, and next sits stored slots after oldest on the ring.
This holds for every state the Rust API can construct (new, with_list,
with_index, push, pop), since the fields are private. -/
def Fixed.WF (b : Fixed T N) : Prop :=
  b.list.length = N ∧ b.next < N ∧ b.oldest < N ∧ b.stored ≤ N ∧
  b.next = (b.oldest + b.stored) % N

/-- Iterated push, discarding the returned evicted values. -/
def Fixed.pushes (b : Fixed T N) : List T → Fixed T N
  | [] => b
  | v :: vs => Fixed.pushes (b.push v).2 vs

/-- State invariant after k pushes into an initially empty buffer:
stored counts up to N, next wraps, and exactly the first min k N slots
are occupied. -/
def Fixed.pushInv (b : Fixed T N) (k : Nat) : Prop :=
  b.list.length = N ∧ b.stored = min k N ∧ b.next = k % N ∧
  ∀ i, i < N → ((b.list.getD i none).isSome = true ↔ i < min k N)

theorem Fixed.push_full (b : Fixed T N) (v : T) (h : b.stored = N) :
    b.push v = (b.list.getD b.next none,
      { list := b.list.set b.next (some v), next := (b.next + 1) % N,
        oldest := (b.next + 1) % N, stored := b.stored }) := by
  unfold Fixed.push
  rw [if_pos h]

theorem Fixed.push_not_full (b : Fixed T N) (v : T) (h : ¬ b.stored = N) :
    b.push v = (b.list.getD b.next none,
      { list := b.list.set b.next (some v), next := (b.next + 1) % N,
        oldest := b.oldest, stored := b.stored + 1 }) := by
  unfold Fixed.push
  rw [if_neg h]

theorem Fixed.pushInv_new : (Fixed.new : Fixed T N).pushInv 0 := by
  refine ⟨List.length_replicate _ _, by simp [Fixed.new], rfl, ?_⟩
  intro i hi
  simp [Fixed.new, List.getD_eq_getElem?_getD]

theorem Fixed.pushInv_step (b : Fixed T N) (k : Nat) (hN : 0 < N)
    (h : b.pushInv k) (v : T) : (b.push v).2.pushInv (k + 1) := by
  obtain ⟨hlen, hstored, hnext, hslot⟩ := h
  have hmodlt : k % N < N := Nat.mod_lt _ hN
  have hnextlt : b.next < N := hnext ▸ hmodlt
  have hnext1 : (b.next + 1) % N = (k + 1) % N := by
    rw [hnext, Nat.mod_add_mod]
  by_cases hfull : b.stored = N
  · have hkN : N ≤ k := by omega
    rw [Fixed.push_full b v hfull]
    refine ⟨by simpa using hlen, by simp; omega, by simpa using hnext1, ?_⟩
    intro i hi
    simp only
    rw [List.getD_eq_getElem?_getD, List.getElem?_set]
    by_cases hin : b.next = i
    · simp [hin, hlen, hi]
      omega
    · simp only [if_neg hin, ← List.getD_eq_getElem?_getD]
      rw [hslot i hi]
      omega
  · have hklt : k < N := by omega
    have hnk : b.next = k := by rw [hnext, Nat.mod_eq_of_lt hklt]
    rw [Fixed.push_not_full b v hfull]
    refine ⟨by simpa using hlen, by simp; omega, by simpa using hnext1, ?_⟩
    intro i hi
    simp only
    rw [List.getD_eq_getElem?_getD, List.getElem?_set]
    by_cases hin : b.next = i
    · simp only [if_pos hin, hlen, hin ▸ hi, if_pos]
      simp
      omega
    · simp only [if_neg hin, ← List.getD_eq_getElem?_getD]
      rw [hslot i hi]
      omega

theorem Fixed.pushInv_pushes (vs : List T) (hN : 0 < N) :
    (Fixed.pushes (Fixed.new : Fixed T N) vs).pushInv vs.length := by
  suffices h : ∀ (vs : List T) (b : Fixed T N) (k : Nat), b.pushInv k →
      (Fixed.pushes b vs).pushInv (k + vs.length) by
    simpa using h vs Fixed.new 0 Fixed.pushInv_new
  intro vs
  induction vs with
  | nil => intro b k h; simpa [Fixed.pushes] using h
  | cons v vs ih =>
      intro b k h
      have h1 := Fixed.pushInv_step b k hN h v
      have h2 := ih (b.push v).2 (k + 1) h1
      simpa [Fixed.pushes, Nat.add_comm, Nat.add_assoc, Nat.add_left_comm] using h2

/-- C2: for capacity N greater than 0 and any sequence of pushes into an
initially empty FixedBuffer, one more push makes the stored count
min (stored + 1) N, and it returns an evicted value exactly when the
buffer was full before the push. -/
theorem c2_fixed_push_stored_and_eviction (T : Type) (N : Nat) (hN : 0 < N)
    (vs : List T) (v : T) :
    ((Fixed.pushes (Fixed.new : Fixed T N) vs).push v).2.stored
        = min ((Fixed.pushes (Fixed.new : Fixed T N) vs).stored + 1) N ∧
    (((Fixed.pushes (Fixed.new : Fixed T N) vs).push v).1.isSome = true ↔
        (Fixed.pushes (Fixed.new : Fixed T N) vs).stored = N) := by
  obtain ⟨hlen, hstored, hnext, hslot⟩ := Fixed.pushInv_pushes (T := T) vs hN
  set b := Fixed.pushes (Fixed.new : Fixed T N) vs with hb
  have hmodlt : vs.length % N < N := Nat.mod_lt _ hN
  have hnextlt : b.next < N := hnext ▸ hmodlt
  constructor
  · by_cases hfull : b.stored = N
    · rw [Fixed.push_full b v hfull]
      simp only
      omega
    · rw [Fixed.push_not_full b v hfull]
      simp only
      omega
  · have hret : (b.push v).1 = b.list.getD b.next none := by
      by_cases hfull : b.stored = N
      · rw [Fixed.push_full b v hfull]
      · rw [Fixed.push_not_full b v hfull]
    rw [hret, hslot b.next hnextlt]
    constructor
    · intro h
      have : N ≤ vs.length := by
        rcases Nat.lt_or_ge vs.length N with hlt | hge
        · rw [Nat.mod_eq_of_lt hlt] at hnext; omega
        · exact hge
      omega
    · intro h
      have hge : N ≤ vs.length := by omega
      omega

/-- C2 witness: concrete run with N = 2 and three pushes. -/
theorem c2_fixed_push_stored_and_eviction_witness :
    0 < 2 ∧
    (((Fixed.pushes (Fixed.new : Fixed Nat 2) [1, 2, 3]).push 4).2.stored
        = min ((Fixed.pushes (Fixed.new : Fixed Nat 2) [1, 2, 3]).stored + 1) 2 ∧
    (((Fixed.pushes (Fixed.new : Fixed Nat 2) [1, 2, 3]).push 4).1.isSome = true ↔
        (Fixed.pushes (Fixed.new : Fixed Nat 2) [1, 2, 3]).stored = 2)) :=
  ⟨by decide, c2_fixed_push_stored_and_eviction Nat 2 (by decide) [1, 2, 3] 4⟩

/-- C3: on any well-formed FixedBuffer state, get 0 agrees with newest, with
a nonempty buffer get (stored - 1) agrees with oldest, and any distance of
at least N is rejected with the index error. -/
theorem c3_fixed_get_newest_oldest (T : Type) (N : Nat) (b : Fixed T N)
    (hwf : b.WF) :
    b.get 0 = .ok b.newest_val ∧
    (0 < b.stored → b.get (b.stored - 1) = .ok b.oldest_val) ∧
    (∀ d, N ≤ d → b.get d = .error ()) := by
  obtain ⟨hlen, hnextlt, holdlt, hstle, hnext⟩ := hwf
  have hN : 0 < N := by omega
  have hnextval : (b.next = b.oldest + b.stored ∧ b.oldest + b.stored < N) ∨
      (b.next = b.oldest + b.stored - N ∧ N ≤ b.oldest + b.stored) := by
    rcases Nat.lt_or_ge (b.oldest + b.stored) N with h | h
    · exact Or.inl ⟨by rw [hnext, Nat.mod_eq_of_lt h], h⟩
    · refine Or.inr ⟨?_, h⟩
      rw [hnext, Nat.mod_eq_sub_mod h, Nat.mod_eq_of_lt (by omega)]
  refine ⟨?_, ?_, ?_⟩
  · simp only [Fixed.get, Fixed.newest_index, Fixed.newest_val,
      List.getD_eq_getElem?_getD]
    rw [if_neg (by omega : ¬ 0 ≥ N)]
    simp
  · intro hpos
    simp only [Fixed.get, Fixed.newest_index, Fixed.oldest_val,
      List.getD_eq_getElem?_getD]
    rw [if_neg (by omega : ¬ b.stored - 1 ≥ N)]
    rcases hnextval with ⟨he, hlt⟩ | ⟨he, hge⟩ <;>
      split_ifs <;>
      · congr 3
        omega
  · intro d hd
    simp only [Fixed.get]
    rw [if_pos (by omega : d ≥ N)]

/-- C3 witness: a concrete well-formed state with N = 3 and two live values. -/
theorem c3_fixed_get_newest_oldest_witness :
    Fixed.WF (⟨[some 1, some 2, none], 2, 0, 2⟩ : Fixed Nat 3) ∧
    (⟨[some 1, some 2, none], 2, 0, 2⟩ : Fixed Nat 3).get 0
      = .ok (⟨[some 1, some 2, none], 2, 0, 2⟩ : Fixed Nat 3).newest_val ∧
    (⟨[some 1, some 2, none], 2, 0, 2⟩ : Fixed Nat 3).get
        ((⟨[some 1, some 2, none], 2, 0, 2⟩ : Fixed Nat 3).stored - 1)
      = .ok (⟨[some 1, some 2, none], 2, 0, 2⟩ : Fixed Nat 3).oldest_val ∧
    (⟨[some 1, some 2, none], 2, 0, 2⟩ : Fixed Nat 3).get 7 = .error () := by
  have hwf : Fixed.WF (⟨[some 1, some 2, none], 2, 0, 2⟩ : Fixed Nat 3) :=
    ⟨rfl, by decide, by decide, by decide, by decide⟩
  have h := c3_fixed_get_newest_oldest Nat 3 ⟨[some 1, some 2, none], 2, 0, 2⟩ hwf
  exact ⟨hwf, h.1, h.2.1 (by decide), h.2.2 7 (by decide)⟩

/-- Embedding of RwFixed::push from src/history/src/list/fixed/sync.rs lines
117-136, acting on the guarded Inner state, which has exactly the fields of
Fixed.  Lock acquisition cannot fail in a sequential embedding, so the Ok
wrapper of the Rust return is dropped.  Note that sync.rs line 130 reads
inner.oldest == inner.next and the comparison result is discarded, so on the
full-buffer path oldest is left unchanged; this embedding reproduces that
behavior faithfully. -/
def RwFixed.push (b : Fixed T N) (v : T) : Option T × Fixed T N :=
  let rtn := b.list.getD b.next none
  let list := b.list.set b.next (some v)
  let next := (b.next + 1) % N
  if b.stored = N then
    (rtn, { list := list, next := next, oldest := b.oldest, stored := b.stored })
  else
    (rtn, { list := list, next := next, oldest := b.oldest, stored := b.stored + 1 })

/-- C1: on the full buffer with next = oldest = 0 and stored = N = 2, pushing
returns the same evicted value in both variants, but Fixed::push advances
oldest to the new next (slot 1) while RwFixed::push leaves oldest at 0,
because sync.rs line 130 compares instead of assigning.  The resulting
states therefore differ, refuting the claimed push equivalence on this
input. -/
theorem c1_rwfixed_push_oldest_stale :
    (RwFixed.push (⟨[some 1, some 2], 0, 0, 2⟩ : Fixed Nat 2) 3).1
      = (Fixed.push (⟨[some 1, some 2], 0, 0, 2⟩ : Fixed Nat 2) 3).1 ∧
    (Fixed.push (⟨[some 1, some 2], 0, 0, 2⟩ : Fixed Nat 2) 3).2.oldest = 1 ∧
    (RwFixed.push (⟨[some 1, some 2], 0, 0, 2⟩ : Fixed Nat 2) 3).2.oldest = 0 ∧
    (RwFixed.push (⟨[some 1, some 2], 0, 0, 2⟩ : Fixed Nat 2) 3).2
      ≠ (Fixed.push (⟨[some 1, some 2], 0, 0, 2⟩ : Fixed Nat 2) 3).2 := by
  decide

/-- Embedding of struct Versioned from src/history/src/versioned/mod.rs.
The BTreeMap from u64 to T is modelled as a partial function from version
numbers to values; the u64 counter is a Nat (reaching wraparound would take
2^64 updates and debug Rust would panic on the overflowing increment, so
wraparound is not modelled). -/
structure Versioned (T : Type) where
  store : Nat → Option T
  count : Nat

/-- Embedding of Versioned::new (versioned/mod.rs lines 17-22). -/
def Versioned.new : Versioned T :=
  { store := fun _ => none, count := 0 }

/-- Embedding of Versioned::update (versioned/mod.rs lines 40-47): reads the
counter as the new version, increments the counter, inserts, and returns the
version used. -/
def Versioned.update (s : Versioned T) (value : T) : Nat × Versioned T :=
  let version := s.count
  (version,
    { store := fun k => if k = version then some value else s.store k,
      count := s.count + 1 })

/-- Embedding of Versioned::remove (versioned/mod.rs lines 50-52). -/
def Versioned.remove (s : Versioned T) (version : Nat) : Option T × Versioned T :=
  (s.store version,
    { store := fun k => if k = version then none else s.store k,
      count := s.count })

/-- Embedding of Versioned::get (versioned/mod.rs lines 55-57). -/
def Versioned.get (s : Versioned T) (version : Nat) : Option T :=
  s.store version

/-- Sequence of updates, collecting the returned version numbers. -/
def Versioned.updatesRun (s : Versioned T) : List T → Versioned T × List Nat
  | [] => (s, [])
  | v :: vs =>
    let r := s.update v
    let rest := Versioned.updatesRun r.2 vs
    (rest.1, r.1 :: rest.2)

theorem Versioned.updatesRun_versions (s : Versioned T) (vs : List T) :
    (Versioned.updatesRun s vs).2 = List.range' s.count vs.length := by
  induction vs generalizing s with
  | nil => rfl
  | cons v vs ih =>
      simp only [Versioned.updatesRun, Versioned.update, List.range'_succ]
      exact congrArg _ (ih _)

/-- C5: updating k times in sequence from the empty store returns exactly
the versions 0 through k-1 in order, and removing a version makes get of it
absent while leaving the counter and every other entry unchanged. -/
theorem c5_versioned_update_versions_and_remove_frame (T : Type)
    (vs : List T) (s : Versioned T) (ver w : Nat) (hw : w ≠ ver) :
    (Versioned.updatesRun (Versioned.new : Versioned T) vs).2
        = List.range vs.length ∧
    (s.remove ver).2.get ver = none ∧
    (s.remove ver).2.count = s.count ∧
    (s.remove ver).2.get w = s.get w := by
  refine ⟨?_, ?_, rfl, ?_⟩
  · rw [Versioned.updatesRun_versions, List.range_eq_range']
    rfl
  · simp [Versioned.remove, Versioned.get]
  · simp [Versioned.remove, Versioned.get, hw]

/-- C5 witness: three updates on a concrete store, removing version 0 and
probing version 1. -/
theorem c5_versioned_update_versions_and_remove_frame_witness :
    (1 : Nat) ≠ 0 ∧
    ((Versioned.updatesRun (Versioned.new : Versioned Nat) [10, 20, 30]).2
        = List.range 3 ∧
     ((Versioned.updatesRun (Versioned.new : Versioned Nat) [10, 20, 30]).1.remove
        0).2.get 0 = none ∧
     ((Versioned.updatesRun (Versioned.new : Versioned Nat) [10, 20, 30]).1.remove
        0).2.count
        = (Versioned.updatesRun (Versioned.new : Versioned Nat) [10, 20, 30]).1.count ∧
     ((Versioned.updatesRun (Versioned.new : Versioned Nat) [10, 20, 30]).1.remove
        0).2.get 1
        = (Versioned.updatesRun (Versioned.new : Versioned Nat) [10, 20, 30]).1.get 1) :=
  ⟨by decide,
   c5_versioned_update_versions_and_remove_frame Nat [10, 20, 30]
     (Versioned.updatesRun (Versioned.new : Versioned Nat) [10, 20, 30]).1 0 1
     (by decide)⟩

/-- Operations on a Versioned store, as in versioned/mod.rs. -/
inductive VOp (T : Type)
  | update (v : T)
  | remove (ver : Nat)

/-- Application of one operation, discarding the returned value. -/
def Versioned.applyOp (s : Versioned T) : VOp T → Versioned T
  | .update v => (s.update v).2
  | .remove ver => (s.remove ver).2

/-- Iterated application of operations. -/
def Versioned.runOps (s : Versioned T) : List (VOp T) → Versioned T
  | [] => s
  | op :: ops => Versioned.runOps (s.applyOp op) ops

/-- Version numbers returned by the update operations along a run. -/
def Versioned.traceVersions (s : Versioned T) : List (VOp T) → List Nat
  | [] => []
  | .update v :: ops => (s.update v).1 :: Versioned.traceVersions (s.update v).2 ops
  | .remove ver :: ops => Versioned.traceVersions (s.remove ver).2 ops

/-- Keys of the store are bounded by the counter. -/
def Versioned.keysBound (s : Versioned T) : Prop :=
  ∀ k, s.store k ≠ none → k < s.count

theorem Versioned.applyOp_keysBound (s : Versioned T) (op : VOp T)
    (h : s.keysBound) : (s.applyOp op).keysBound := by
  cases op with
  | update v =>
      intro k hk
      simp only [Versioned.applyOp, Versioned.update] at hk ⊢
      by_cases hks : k = s.count
      · omega
      · rw [if_neg hks] at hk
        have := h k hk
        omega
  | remove ver =>
      intro k hk
      simp only [Versioned.applyOp, Versioned.remove] at hk ⊢
      by_cases hks : k = ver
      · rw [if_pos hks] at hk
        exact absurd rfl hk
      · rw [if_neg hks] at hk
        exact h k hk

theorem Versioned.applyOp_count_mono (s : Versioned T) (op : VOp T) :
    s.count ≤ (s.applyOp op).count := by
  cases op with
  | update v => exact Nat.le_succ _
  | remove ver => exact Nat.le_refl _

theorem Versioned.runOps_keysBound (ops : List (VOp T)) (s : Versioned T)
    (h : s.keysBound) : (Versioned.runOps s ops).keysBound := by
  induction ops generalizing s with
  | nil => exact h
  | cons op ops ih => exact ih _ (Versioned.applyOp_keysBound s op h)

theorem Versioned.traceVersions_lb (ops : List (VOp T)) (s : Versioned T) :
    ∀ x ∈ Versioned.traceVersions s ops, s.count ≤ x := by
  induction ops generalizing s with
  | nil => intro x hx; cases hx
  | cons op ops ih =>
      cases op with
      | update v =>
          intro x hx
          rcases List.mem_cons.mp hx with hx | hx
          · simp [Versioned.update, hx]
          · have := ih (s.update v).2 x hx
            simp only [Versioned.update] at this
            omega
      | remove ver =>
          intro x hx
          have := ih (s.remove ver).2 x hx
          simpa [Versioned.remove] using this

theorem Versioned.traceVersions_pairwise (ops : List (VOp T)) (s : Versioned T) :
    (Versioned.traceVersions s ops).Pairwise (· < ·) := by
  induction ops generalizing s with
  | nil => exact List.Pairwise.nil
  | cons op ops ih =>
      cases op with
      | update v =>
          refine List.Pairwise.cons ?_ (ih (s.update v).2)
          intro x hx
          have := Versioned.traceVersions_lb ops (s.update v).2 x hx
          simp only [Versioned.update] at this ⊢
          omega
      | remove ver => exact ih (s.remove ver).2

/-- C6: every key living in a store reachable from new is below the counter,
the counter never decreases across any single operation, and the version
numbers handed out by updates along any run from new are pairwise distinct,
removals notwithstanding. -/
theorem c6_versioned_counter_invariants (T : Type) (ops : List (VOp T))
    (k : Nat) (hk : (Versioned.runOps (Versioned.new : Versioned T) ops).store k ≠ none)
    (s : Versioned T) (op : VOp T) :
    k < (Versioned.runOps (Versioned.new : Versioned T) ops).count ∧
    s.count ≤ (s.applyOp op).count ∧
    (Versioned.traceVersions (Versioned.new : Versioned T) ops).Nodup := by
  refine ⟨?_, Versioned.applyOp_count_mono s op, ?_⟩
  · refine Versioned.runOps_keysBound ops Versioned.new ?_ k hk
    intro j hj
    exact absurd rfl hj
  · exact (Versioned.traceVersions_pairwise ops Versioned.new).imp
      (fun h => Nat.ne_of_lt h)

/-- C6 witness: a concrete run mixing updates and a removal. -/
theorem c6_versioned_counter_invariants_witness :
    (Versioned.runOps (Versioned.new : Versioned Nat)
        [.update 5, .remove 0, .update 7]).store 1 ≠ none ∧
    (1 < (Versioned.runOps (Versioned.new : Versioned Nat)
        [.update 5, .remove 0, .update 7]).count ∧
     (Versioned.new : Versioned Nat).count
        ≤ ((Versioned.new : Versioned Nat).applyOp (.update 3)).count ∧
     (Versioned.traceVersions (Versioned.new : Versioned Nat)
        [.update 5, .remove 0, .update 7]).Nodup) :=
  ⟨by decide,
   c6_versioned_counter_invariants Nat [.update 5, .remove 0, .update 7] 1
     (by decide) Versioned.new (.update 3)⟩

/-- Embedding of struct FixedIter (mod.rs lines 197-203). -/
structure FixedIter (T : Type) (N : Nat) where
  working : Fixed T N
  backward : Nat
  backward_count : Nat
  forward : Nat
  forward_count : Nat
deriving Repr, DecidableEq

/-- Embedding of Fixed::iter (mod.rs lines 146-154). -/
def Fixed.iter (b : Fixed T N) : FixedIter T N :=
  { working := b, backward := b.newest_index, backward_count := 0,
    forward := b.oldest, forward_count := 0 }

/-- Embedding of FixedIter::next (mod.rs lines 208-224), the forward
direction of the iterator, returning the yield and the advanced iterator. -/
def FixedIter.next (it : FixedIter T N) : Option T × FixedIter T N :=
  if it.backward_count = it.working.stored then (none, it)
  else
    let rtn := it.working.list.getD it.backward none
    let backward := if it.backward = 0 then N - 1 else it.backward - 1
    (rtn, { it with backward := backward,
                    backward_count := it.backward_count + 1 })

/-- Embedding of FixedIter::next_back (mod.rs lines 228-244), the backward
direction of the iterator. -/
def FixedIter.next_back (it : FixedIter T N) : Option T × FixedIter T N :=
  if it.forward_count = it.working.stored then (none, it)
  else
    let rtn := it.working.list.getD it.forward none
    let forward := if it.forward = N - 1 then 0 else it.forward + 1
    (rtn, { it with forward := forward,
                    forward_count := it.forward_count + 1 })

/-- Yields of a mixed sequence of iterator calls; true drives next and
false drives next_back. -/
def FixedIter.runYields (it : FixedIter T N) : List Bool → List (Option T)
  | [] => []
  | c :: cs =>
    let r := if c then it.next else it.next_back
    r.1 :: FixedIter.runYields r.2 cs

/-- Slot indices actually read by each direction during a mixed sequence of
calls: a direction records the slot its cursor is on exactly when its count
has not yet reached stored, precisely the guard of next and next_back. -/
def FixedIter.runSlots (it : FixedIter T N) : List Bool → List Nat × List Nat
  | [] => ([], [])
  | c :: cs =>
    if c then
      if it.backward_count = it.working.stored then FixedIter.runSlots it cs
      else
        let rest := FixedIter.runSlots (it.next).2 cs
        (it.backward :: rest.1, rest.2)
    else
      if it.forward_count = it.working.stored then FixedIter.runSlots it cs
      else
        let rest := FixedIter.runSlots (it.next_back).2 cs
        (rest.1, it.forward :: rest.2)

/-- Cursor positions visited by the forward direction alone: starting on pos
with yield budget st minus count, stepping downward with wraparound. -/
def fwdSlots (st N pos count fuel : Nat) : List Nat :=
  match fuel with
  | 0 => []
  | fuel + 1 =>
    if count = st then []
    else pos :: fwdSlots st N (if pos = 0 then N - 1 else pos - 1) (count + 1) fuel

/-- Cursor positions visited by the backward direction alone: starting on pos,
stepping upward with wraparound. -/
def bwdSlots (st N pos count fuel : Nat) : List Nat :=
  match fuel with
  | 0 => []
  | fuel + 1 =>
    if count = st then []
    else pos :: bwdSlots st N (if pos = N - 1 then 0 else pos + 1) (count + 1) fuel

theorem fwdSlots_exhausted (st N pos fuel : Nat) :
    fwdSlots st N pos st fuel = [] := by
  cases fuel with
  | zero => rfl
  | succ fuel => simp [fwdSlots]

theorem bwdSlots_exhausted (st N pos fuel : Nat) :
    bwdSlots st N pos st fuel = [] := by
  cases fuel with
  | zero => rfl
  | succ fuel => simp [bwdSlots]

/-- The two directions of a mixed run are independent: each direction's
slot reads depend only on how many calls that direction received. -/
theorem FixedIter.runSlots_proj (calls : List Bool) (it : FixedIter T N) :
    FixedIter.runSlots it calls
      = (fwdSlots it.working.stored N it.backward it.backward_count
           (calls.count true),
         bwdSlots it.working.stored N it.forward it.forward_count
           (calls.count false)) := by
  induction calls generalizing it with
  | nil => rfl
  | cons c cs ih =>
      cases c with
      | true =>
          simp only [FixedIter.runSlots, List.count_cons, if_pos rfl]
          by_cases hex : it.backward_count = it.working.stored
          · rw [if_pos hex, ih it]
            simp only [hex, fwdSlots_exhausted]
            have h1 : cs.count true + 1 = cs.count true + 1 := rfl
            simp [fwdSlots_exhausted]
          · rw [if_neg hex]
            have hnext : (it.next).2 = { it with
                backward := if it.backward = 0 then N - 1 else it.backward - 1,
                backward_count := it.backward_count + 1 } := by
              simp [FixedIter.next, hex]
            rw [ih (it.next).2, hnext]
            simp only
            have : (true == true) = true := rfl
            simp only [this, if_pos]
            rw [show cs.count true + 1 = cs.count true + 1 from rfl]
            have hfw : fwdSlots it.working.stored N it.backward it.backward_count
                (cs.count true + 1)
                = it.backward :: fwdSlots it.working.stored N
                    (if it.backward = 0 then N - 1 else it.backward - 1)
                    (it.backward_count + 1) (cs.count true) := by
              rw [fwdSlots]
              rw [if_neg hex]
            rw [hfw]
            simp
      | false =>
          simp only [FixedIter.runSlots, List.count_cons]
          by_cases hex : it.forward_count = it.working.stored
          · rw [if_neg (by simp : ¬ false = true), if_pos hex, ih it]
            simp [hex, bwdSlots_exhausted]
          · rw [if_neg (by simp : ¬ false = true), if_neg hex]
            have hnext : (it.next_back).2 = { it with
                forward := if it.forward = N - 1 then 0 else it.forward + 1,
                forward_count := it.forward_count + 1 } := by
              simp [FixedIter.next_back, hex]
            rw [ih (it.next_back).2, hnext]
            simp only
            have hbw : bwdSlots it.working.stored N it.forward it.forward_count
                (cs.count false + 1)
                = it.forward :: bwdSlots it.working.stored N
                    (if it.forward = N - 1 then 0 else it.forward + 1)
                    (it.forward_count + 1) (cs.count false) := by
              rw [bwdSlots]
              rw [if_neg hex]
            simp only [show (false == true) = false from rfl, show
              (false == false) = true from rfl, if_pos, if_neg, Bool.false_eq_true,
              not_false_eq_true]
            rw [hbw]
            simp

theorem shift_mod (N s0 c : Nat) (hs : s0 < N) (hc : c ≤ N) :
    (s0 + N - c) % N = if c ≤ s0 then s0 - c else s0 + N - c := by
  rcases le_or_lt c s0 with h | h
  · rw [if_pos h]
    have he : s0 + N - c = s0 - c + N := by omega
    rw [he, Nat.add_mod_right]
    exact Nat.mod_eq_of_lt (by omega)
  · rw [if_neg (by omega)]
    exact Nat.mod_eq_of_lt (by omega)

theorem add_mod_char (N o c : Nat) (ho : o < N) (hc : c ≤ N) :
    (o + c) % N = if o + c < N then o + c else o + c - N := by
  split
  · exact Nat.mod_eq_of_lt (by omega)
  · rw [Nat.mod_eq_sub_mod (by omega)]
    exact Nat.mod_eq_of_lt (by omega)

theorem fwd_step (N s0 c : Nat) (hs : s0 < N) (hc : c < N) :
    (if (s0 + N - c) % N = 0 then N - 1 else (s0 + N - c) % N - 1)
      = (s0 + N - (c + 1)) % N := by
  rw [shift_mod N s0 c hs (by omega), shift_mod N s0 (c + 1) hs (by omega)]
  split_ifs <;> omega

theorem bwd_step (N o c : Nat) (ho : o < N) (hc : c < N) :
    (if (o + c) % N = N - 1 then 0 else (o + c) % N + 1) = (o + c + 1) % N := by
  have h2 := add_mod_char N o (c + 1) ho (by omega)
  rw [show o + (c + 1) = o + c + 1 from by omega] at h2
  rw [add_mod_char N o c ho (by omega), h2]
  split_ifs <;> omega

theorem fwdSlots_eq_map (st N : Nat) (hstN : st ≤ N) (s0 : Nat) (hs : s0 < N) :
    ∀ (fuel count : Nat), count ≤ st →
      fwdSlots st N ((s0 + N - count) % N) count fuel
        = (List.range' count (min fuel (st - count))).map
            (fun c => (s0 + N - c) % N) := by
  intro fuel
  induction fuel with
  | zero => intro count hc; simp [fwdSlots]
  | succ fuel ih =>
      intro count hc
      by_cases hcs : count = st
      · subst hcs
        rw [fwdSlots_exhausted]
        simp
      · simp only [fwdSlots]
        rw [if_neg hcs]
        rw [fwd_step N s0 count hs (by omega)]
        rw [ih (count + 1) (by omega)]
        have hm : min (fuel + 1) (st - count) = min fuel (st - (count + 1)) + 1 := by
          omega
        rw [hm, List.range'_succ]
        simp

theorem bwdSlots_eq_map (st N : Nat) (hstN : st ≤ N) (o : Nat) (ho : o < N) :
    ∀ (fuel count : Nat), count ≤ st →
      bwdSlots st N ((o + count) % N) count fuel
        = (List.range' count (min fuel (st - count))).map
            (fun c => (o + c) % N) := by
  intro fuel
  induction fuel with
  | zero => intro count hc; simp [bwdSlots]
  | succ fuel ih =>
      intro count hc
      by_cases hcs : count = st
      · subst hcs
        rw [bwdSlots_exhausted]
        simp
      · simp only [bwdSlots]
        rw [if_neg hcs]
        rw [bwd_step N o count ho (by omega)]
        have harg : o + count + 1 = o + (count + 1) := by omega
        rw [harg, ih (count + 1) (by omega)]
        have hm : min (fuel + 1) (st - count) = min fuel (st - (count + 1)) + 1 := by
          omega
        rw [hm, List.range'_succ]
        simp

theorem nodup_fwd_map (st N s0 m : Nat) (hstN : st ≤ N) (hs : s0 < N)
    (hm : m ≤ st) :
    ((List.range' 0 m).map (fun c => (s0 + N - c) % N)).Nodup := by
  refine List.Nodup.map_on ?_ (List.nodup_range' 0 m)
  intro x hx y hy hxy
  obtain ⟨i, hi, hxe⟩ := List.mem_range'.mp hx
  obtain ⟨j, hj, hye⟩ := List.mem_range'.mp hy
  have hxi : x = i := by omega
  have hyj : y = j := by omega
  have hxlt : x < N := by omega
  have hylt : y < N := by omega
  rw [shift_mod N s0 x hs (by omega), shift_mod N s0 y hs (by omega)] at hxy
  split_ifs at hxy <;> omega

theorem nodup_bwd_map (st N o m : Nat) (hstN : st ≤ N) (ho : o < N)
    (hm : m ≤ st) :
    ((List.range' 0 m).map (fun c => (o + c) % N)).Nodup := by
  refine List.Nodup.map_on ?_ (List.nodup_range' 0 m)
  intro x hx y hy hxy
  obtain ⟨i, hi, hxe⟩ := List.mem_range'.mp hx
  obtain ⟨j, hj, hye⟩ := List.mem_range'.mp hy
  have hxlt : x < N := by omega
  have hylt : y < N := by omega
  rw [add_mod_char N o x ho (by omega), add_mod_char N o y ho (by omega)] at hxy
  split_ifs at hxy <;> omega

/-- C4 counterexample: on a full one-slot buffer the mixed call sequence
next then next_back yields the single stored value twice, because the two
cursors have independent budgets; the claimed never-double-visits guarantee
fails on this well-formed state. -/
theorem c4_mixed_iteration_double_visits :
    Fixed.WF (⟨[some 5], 0, 0, 1⟩ : Fixed Nat 1) ∧
    (⟨[some 5], 0, 0, 1⟩ : Fixed Nat 1).stored = 1 ∧
    FixedIter.runYields ((⟨[some 5], 0, 0, 1⟩ : Fixed Nat 1).iter) [true, false]
      = [some 5, some 5] := by
  refine ⟨⟨rfl, by decide, by decide, by decide, by decide⟩, by decide, by decide⟩

/-- C4 amended: during any mixed sequence of next and next_back calls on a
well-formed buffer, each direction on its own reads at most stored slots and
never reads the same slot twice; but the two directions do not share a
budget, so a slot can be read once by each direction. -/
theorem c4_iter_directions_individually_visit_once (T : Type) (N : Nat)
    (b : Fixed T N) (hwf : b.WF) (calls : List Bool) :
    (FixedIter.runSlots b.iter calls).1.Nodup ∧
    (FixedIter.runSlots b.iter calls).2.Nodup ∧
    (FixedIter.runSlots b.iter calls).1.length ≤ b.stored ∧
    (FixedIter.runSlots b.iter calls).2.length ≤ b.stored := by
  obtain ⟨hlen, hnextlt, holdlt, hstle, hnext⟩ := hwf
  have hN : 0 < N := by omega
  have hs0 : b.newest_index < N := by
    unfold Fixed.newest_index
    split <;> omega
  have hb : b.iter.backward = (b.newest_index + N - 0) % N := by
    simp only [Fixed.iter, Nat.sub_zero, Nat.add_mod_right]
    exact (Nat.mod_eq_of_lt hs0).symm
  have hf : b.iter.forward = (b.oldest + 0) % N := by
    simp only [Fixed.iter, Nat.add_zero]
    exact (Nat.mod_eq_of_lt holdlt).symm
  have hproj := FixedIter.runSlots_proj (T := T) (N := N) calls b.iter
  have hst : b.iter.working.stored = b.stored := rfl
  rw [hb, hf] at hproj
  have hfwd := fwdSlots_eq_map b.stored N hstle b.newest_index hs0
      (calls.count true) 0 (by omega)
  have hbwd := bwdSlots_eq_map b.stored N hstle b.oldest holdlt
      (calls.count false) 0 (by omega)
  have hbc : b.iter.backward_count = 0 := rfl
  have hfc : b.iter.forward_count = 0 := rfl
  rw [hst, hbc, hfc, hfwd, hbwd] at hproj
  rw [hproj]
  simp only [Nat.sub_zero] at *
  refine ⟨?_, ?_, ?_, ?_⟩
  · exact nodup_fwd_map b.stored N b.newest_index _ hstle hs0 (by omega)
  · exact nodup_bwd_map b.stored N b.oldest _ hstle holdlt (by omega)
  · simp [List.length_map, List.length_range']
  · simp [List.length_map, List.length_range']

/-- C4 amended witness: a concrete mixed run on a three-slot buffer. -/
theorem c4_iter_directions_individually_visit_once_witness :
    Fixed.WF (⟨[some 1, some 2, none], 2, 0, 2⟩ : Fixed Nat 3) ∧
    ((FixedIter.runSlots (⟨[some 1, some 2, none], 2, 0, 2⟩ : Fixed Nat 3).iter
        [true, false, true, false]).1.Nodup ∧
     (FixedIter.runSlots (⟨[some 1, some 2, none], 2, 0, 2⟩ : Fixed Nat 3).iter
        [true, false, true, false]).2.Nodup ∧
     (FixedIter.runSlots (⟨[some 1, some 2, none], 2, 0, 2⟩ : Fixed Nat 3).iter
        [true, false, true, false]).1.length
        ≤ (⟨[some 1, some 2, none], 2, 0, 2⟩ : Fixed Nat 3).stored ∧
     (FixedIter.runSlots (⟨[some 1, some 2, none], 2, 0, 2⟩ : Fixed Nat 3).iter
        [true, false, true, false]).2.length
        ≤ (⟨[some 1, some 2, none], 2, 0, 2⟩ : Fixed Nat 3).stored) :=
  ⟨⟨rfl, by decide, by decide, by decide, by decide⟩,
   c4_iter_directions_individually_visit_once Nat 3
     ⟨[some 1, some 2, none], 2, 0, 2⟩
     ⟨rfl, by decide, by decide, by decide, by decide⟩
     [true, false, true, false]⟩

/-- Embedding of struct Varied (src/history/src/list/varied.rs lines 3-6).
A Rust Vec carries an implicit capacity; it is modelled as an explicit
field, with list.length ≤ capacity for every Vec the API can build. -/
structure Varied (T : Type) where
  list : List T
  capacity : Nat
  index : Nat
deriving Repr, DecidableEq

/-- Embedding of Varied::new (varied.rs lines 9-14); Vec::new has capacity 0. -/
def Varied.new : Varied T :=
  { list := [], capacity := 0, index := 0 }

/-- Embedding of Varied::with_index (varied.rs lines 23-39); the capacity of
the given vector is made an explicit argument. -/
def Varied.with_index (given : List T) (capacity index : Nat) : Option (Varied T) :=
  if index > capacity then none
  else if given.length = capacity then
    some { list := given, capacity := capacity, index := index }
  else
    some { list := given, capacity := capacity, index := 0 }

/-- Embedding of Varied::push (varied.rs lines 48-60).  The at-capacity path
indexes self.list[self.index], which panics when the index is out of bounds
(in particular on the very first push of the zero-capacity buffer of new);
the panic is modelled as none, and a completed call returns some of the
displaced value (if any) with the new state. -/
def Varied.push (b : Varied T) (v : T) : Option (Option T × Varied T) :=
  if b.list.length = b.capacity then
    match b.list[b.index]? with
    | none => none
    | some old =>
      some (some old,
        { list := b.list.set b.index v, capacity := b.capacity,
          index := (b.index + 1) % b.list.length })
  else
    some (none, { list := b.list ++ [v], capacity := b.capacity, index := b.index })

/-- C9 counterexample: with_index accepts index equal to the capacity, so a
buffer of capacity 1 (greater than zero) whose index is 1 is constructible,
and its push indexes one past the end of the backing sequence and panics;
capacity greater than zero alone does not make push total. -/
theorem c9_push_panics_with_positive_capacity :
    Varied.with_index [7] 1 1 = some (⟨[7], 1, 1⟩ : Varied Nat) ∧
    (⟨[7], 1, 1⟩ : Varied Nat).capacity = 1 ∧
    Varied.push (⟨[7], 1, 1⟩ : Varied Nat) 9 = none := by
  refine ⟨by decide, by decide, by decide⟩

/-- C9 amended: push is total for every buffer whose index is within the
backing sequence whenever the buffer is at capacity (which positive capacity
alone does not guarantee), and the very first push on the zero-capacity
buffer of new takes the at-capacity swap path, reads index 0 of the empty
sequence, and panics. -/
theorem c9_push_total_with_index_in_bounds (T : Type) (b : Varied T) (v : T)
    (hcap : 0 < b.capacity)
    (hidx : b.list.length = b.capacity → b.index < b.list.length) :
    (Varied.push b v).isSome = true ∧ Varied.push (Varied.new : Varied T) v = none := by
  constructor
  · by_cases hl : b.list.length = b.capacity
    · have hi := hidx hl
      simp only [Varied.push, if_pos hl]
      rw [List.getElem?_eq_getElem hi]
      rfl
    · simp [Varied.push, hl]
  · rfl

/-- C9 amended witness: a concrete at-capacity buffer with in-bounds index. -/
theorem c9_push_total_with_index_in_bounds_witness :
    0 < (⟨[3, 4], 2, 0⟩ : Varied Nat).capacity ∧
    ((⟨[3, 4], 2, 0⟩ : Varied Nat).list.length = (⟨[3, 4], 2, 0⟩ : Varied Nat).capacity
      → (⟨[3, 4], 2, 0⟩ : Varied Nat).index < (⟨[3, 4], 2, 0⟩ : Varied Nat).list.length) ∧
    ((Varied.push (⟨[3, 4], 2, 0⟩ : Varied Nat) 5).isSome = true ∧
     Varied.push (Varied.new : Varied Nat) 5 = none) :=
  ⟨by decide, fun _ => by decide,
   c9_push_total_with_index_in_bounds Nat ⟨[3, 4], 2, 0⟩ 5 (by decide)
     (fun _ => by decide)⟩

/-- Embedding of fn diff (varied.rs lines 130-136). -/
def diff (a b : Nat) : Nat × Bool :=
  if a > b then (a - b, true) else (b - a, false)

/-- Embedding of fn rotate_to_position (varied.rs lines 138-154).  The core
List.rotateLeft and List.rotateRight agree with the Rust slice rotations. -/
def rotate_to_position (given : List T) (index position : Nat) : List T :=
  match diff index position with
  | (d, to_left) =>
    if d < given.length / 2 then
      if to_left then given.rotateLeft d else given.rotateRight d
    else
      if to_left then given.rotateRight (given.length - d)
      else given.rotateLeft (given.length - d)

/-- Embedding of the pop loop of Varied::shrink (varied.rs lines 116-119):
pops n values off the tail, collecting them in pop order.  The source
unwraps the pop; within shrink the loop never runs past the head, and the
empty case (unreachable there) returns what was collected. -/
def pop_loop (l acc : List T) : Nat → List T × List T
  | 0 => (acc, l)
  | n + 1 =>
    match l.getLast? with
    | none => (acc, l)
    | some v => pop_loop l.dropLast (acc ++ [v]) n

/-- Embedding of Varied::shrink (varied.rs lines 107-127).  new_capacity is
the local of the source; popping does not reduce a Rust Vec capacity and
shrink calls no capacity-shrinking method, so the capacity field is kept.
The usize subtraction capacity - amount would panic in debug Rust when
amount exceeds the capacity, so claims assume amount ≤ capacity. -/
def Varied.shrink (b : Varied T) (amount : Nat) : List T × Varied T :=
  let new_capacity := b.capacity - amount
  if new_capacity < b.list.length then
    let dropping := b.list.length - new_capacity
    let rotated := rotate_to_position b.list b.index new_capacity
    let popped := pop_loop rotated [] dropping
    (popped.1, { list := popped.2, capacity := b.capacity, index := b.index })
  else
    ([], b)

theorem rotateLeft_eq_drop_append_take (l : List T) (n : Nat) :
    l.rotateLeft n = l.drop (n % l.length) ++ l.take (n % l.length) := by
  by_cases h : l.length ≤ 1
  · rcases l with _ | ⟨a, t⟩
    · simp [List.rotateLeft]
    · rcases t with _ | ⟨b, t⟩
      · simp [List.rotateLeft, Nat.mod_one]
      · simp at h
  · simp only [List.rotateLeft, if_neg h]

theorem rotateRight_eq_drop_append_take (l : List T) (n : Nat) :
    l.rotateRight n
      = l.drop (l.length - n % l.length) ++ l.take (l.length - n % l.length) := by
  by_cases h : l.length ≤ 1
  · rcases l with _ | ⟨a, t⟩
    · simp [List.rotateRight]
    · rcases t with _ | ⟨b, t⟩
      · simp [List.rotateRight, Nat.mod_one]
      · simp at h
  · simp only [List.rotateRight, if_neg h]

theorem rotate_to_position_eq (l : List T) (i p : Nat) (hi : i < l.length)
    (hp : p < l.length) :
    rotate_to_position l i p
      = l.drop ((i + (l.length - p)) % l.length)
          ++ l.take ((i + (l.length - p)) % l.length) := by
  have hlen : 0 < l.length := by omega
  by_cases hip : i > p
  · have hk : (i + (l.length - p)) % l.length = i - p := by
      rw [show i + (l.length - p) = (i - p) + l.length from by omega,
        Nat.add_mod_right]
      exact Nat.mod_eq_of_lt (by omega)
    rw [hk]
    have hd : diff i p = (i - p, true) := by
      unfold diff
      rw [if_pos hip]
    unfold rotate_to_position
    rw [hd]
    dsimp only
    by_cases hhalf : i - p < l.length / 2
    · rw [if_pos hhalf, if_pos rfl, rotateLeft_eq_drop_append_take,
        Nat.mod_eq_of_lt (by omega)]
    · rw [if_neg hhalf, if_pos rfl, rotateRight_eq_drop_append_take]
      have hmod : (l.length - (i - p)) % l.length = l.length - (i - p) := by
        exact Nat.mod_eq_of_lt (by omega)
      rw [hmod, show l.length - (l.length - (i - p)) = i - p from by omega]
  · have hd : diff i p = (p - i, false) := by
      unfold diff
      rw [if_neg hip]
    unfold rotate_to_position
    rw [hd]
    dsimp only
    by_cases hzero : p = i
    · subst hzero
      have hk : (p + (l.length - p)) % l.length = 0 := by
        rw [show p + (l.length - p) = l.length from by omega, Nat.mod_self]
      rw [hk]
      simp only [Nat.sub_self]
      by_cases hhalf : 0 < l.length / 2
      · rw [if_pos hhalf, if_neg (by simp), rotateRight_eq_drop_append_take,
          Nat.zero_mod, Nat.sub_zero]
        simp
      · rw [if_neg hhalf, if_neg (by simp), rotateLeft_eq_drop_append_take,
          Nat.sub_zero, Nat.mod_self]
    · have hpi : i < p := by omega
      have hk : (i + (l.length - p)) % l.length = l.length - (p - i) := by
        rw [show i + (l.length - p) = l.length - (p - i) from by omega]
        exact Nat.mod_eq_of_lt (by omega)
      rw [hk]
      by_cases hhalf : p - i < l.length / 2
      · rw [if_pos hhalf, if_neg (by simp), rotateRight_eq_drop_append_take,
          Nat.mod_eq_of_lt (by omega)]
      · rw [if_neg hhalf, if_neg (by simp), rotateLeft_eq_drop_append_take,
          Nat.mod_eq_of_lt (by omega)]

theorem rot_comp (l : List T) (i m : Nat) (hi : i < l.length) (hm : m ≤ l.length) :
    (l.drop i ++ l.take i).drop m ++ (l.drop i ++ l.take i).take m
      = l.drop ((i + m) % l.length) ++ l.take ((i + m) % l.length) := by
  have hL : 0 < l.length := by omega
  by_cases him : i + m < l.length
  · have hk : (i + m) % l.length = i + m := Nat.mod_eq_of_lt him
    rw [hk]
    rw [List.drop_append_eq_append_drop, List.take_append_eq_append_take]
    simp only [List.length_drop]
    rw [show m - (l.length - i) = 0 from by omega]
    rw [List.drop_drop, List.drop_zero, List.take_zero, List.append_nil]
    rw [List.take_add, List.append_assoc]
  · have hk : (i + m) % l.length = i + m - l.length := by
      rw [Nat.mod_eq_sub_mod (by omega)]
      exact Nat.mod_eq_of_lt (by omega)
    rw [hk]
    rw [List.drop_append_eq_append_drop, List.take_append_eq_append_take]
    simp only [List.length_drop]
    rw [List.drop_drop]
    rw [List.drop_eq_nil_of_le (show l.length ≤ i + m from by omega)]
    rw [List.nil_append]
    rw [show m - (l.length - i) = i + m - l.length from by omega]
    rw [List.drop_take]
    rw [List.take_of_length_le (show (l.drop i).length ≤ m from by
      rw [List.length_drop]; omega)]
    rw [List.take_take]
    rw [show min (i + m - l.length) i = i + m - l.length from by omega]
    rw [← List.append_assoc]
    congr 1
    have hsplit := List.take_append_drop (i - (i + m - l.length))
      (l.drop (i + m - l.length))
    rw [List.drop_drop] at hsplit
    rw [show i + m - l.length + (i - (i + m - l.length)) = i from by omega] at hsplit
    exact hsplit

theorem pop_loop_spec (n : Nat) : ∀ (l acc : List T), n ≤ l.length →
    pop_loop l acc n
      = (acc ++ (l.drop (l.length - n)).reverse, l.take (l.length - n)) := by
  induction n with
  | zero =>
      intro l acc h
      simp [pop_loop]
  | succ n ih =>
      intro l acc h
      have hne : l ≠ [] := by
        intro he
        rw [he] at h
        simp at h
      simp only [pop_loop]
      rw [List.getLast?_eq_getLast l hne]
      dsimp only
      have hlast := List.dropLast_concat_getLast hne
      have hlen1 : l.dropLast.length = l.length - 1 := List.length_dropLast l
      rw [ih l.dropLast (acc ++ [l.getLast hne]) (by omega)]
      rw [hlen1]
      have hdrop : l.drop (l.length - (n + 1))
          = l.dropLast.drop (l.length - (n + 1)) ++ [l.getLast hne] := by
        have h2 : (l.dropLast ++ [l.getLast hne]).drop (l.length - (n + 1))
            = l.dropLast.drop (l.length - (n + 1)) ++ [l.getLast hne] := by
          rw [List.drop_append_eq_append_drop,
            show l.length - (n + 1) - l.dropLast.length = 0 from by omega,
            List.drop_zero]
        rw [← h2, hlast]
      have htake : l.take (l.length - (n + 1))
          = l.dropLast.take (l.length - (n + 1)) := by
        have h2 : (l.dropLast ++ [l.getLast hne]).take (l.length - (n + 1))
            = l.dropLast.take (l.length - (n + 1)) := by
          rw [List.take_append_eq_append_take,
            show l.length - (n + 1) - l.dropLast.length = 0 from by omega]
          simp
        rw [← h2, hlast]
      rw [hdrop, htake, List.reverse_concat]
      rw [show l.length - 1 - n = l.length - (n + 1) from by omega]
      simp

/-- C7 counterexample: on the at-capacity buffer [1,2,3,4] with index 0
(so the oldest-to-newest order is 1,2,3,4), shrinking by 2 removes the two
oldest values 1 and 2 but returns them as [2,1] — newest-removed first —
not in the claimed oldest-to-newest order [1,2]. -/
theorem c7_shrink_order_is_newest_first :
    (Varied.shrink (⟨[1, 2, 3, 4], 4, 0⟩ : Varied Nat) 2).1 = [2, 1] ∧
    (Varied.shrink (⟨[1, 2, 3, 4], 4, 0⟩ : Varied Nat) 2).2.list = [3, 4] ∧
    ([2, 1] : List Nat) ≠ [1, 2] := by
  refine ⟨by decide, by decide, by decide⟩

/-- C7 amended: when the reduced capacity falls below the current length,
shrink removes exactly length - new_capacity elements, the logically oldest
ones (the buffer keeps the newest elements, in oldest-first order), and
returns the removed values ordered newest-to-oldest, the reverse of the
claimed order. -/
theorem c7_shrink_removes_oldest_returns_reversed (T : Type) (b : Varied T)
    (amount : Nat) (hidx : b.index < b.list.length)
    (hlen : b.list.length ≤ b.capacity)
    (hsh : b.capacity - amount < b.list.length) :
    (b.shrink amount).1
      = ((b.list.rotateLeft b.index).take
          (b.list.length - (b.capacity - amount))).reverse ∧
    (b.shrink amount).2.list
      = (b.list.rotateLeft b.index).drop
          (b.list.length - (b.capacity - amount)) ∧
    (b.shrink amount).1.length = b.list.length - (b.capacity - amount) := by
  rcases b with ⟨l, cap, i⟩
  simp only at hidx hlen hsh ⊢
  have hL : 0 < l.length := by omega
  have hpl : cap - amount < l.length := hsh
  have hil : i < l.length := hidx
  have hshr : Varied.shrink ⟨l, cap, i⟩ amount
      = ((pop_loop (rotate_to_position l i (cap - amount)) []
            (l.length - (cap - amount))).1,
         ⟨(pop_loop (rotate_to_position l i (cap - amount)) []
            (l.length - (cap - amount))).2, cap, i⟩) := by
    simp only [Varied.shrink]
    rw [if_pos hpl]
  have hA_len : (l.drop i ++ l.take i).length = l.length := by
    rw [List.length_append, List.length_drop, List.length_take]
    omega
  have hR : rotate_to_position l i (cap - amount)
      = (l.drop i ++ l.take i).drop (l.length - (cap - amount))
        ++ (l.drop i ++ l.take i).take (l.length - (cap - amount)) := by
    rw [rotate_to_position_eq l i (cap - amount) hil hpl]
    rw [← rot_comp l i (l.length - (cap - amount)) hil (by omega)]
  have hR_len : (rotate_to_position l i (cap - amount)).length = l.length := by
    rw [hR, List.length_append, List.length_drop, List.length_take, hA_len]
    omega
  have hpop := pop_loop_spec (l.length - (cap - amount))
    (rotate_to_position l i (cap - amount)) [] (by omega)
  rw [hR_len] at hpop
  rw [show l.length - (l.length - (cap - amount)) = cap - amount from by omega]
    at hpop
  have hdropR : (rotate_to_position l i (cap - amount)).drop (cap - amount)
      = (l.drop i ++ l.take i).take (l.length - (cap - amount)) := by
    rw [hR, List.drop_append_eq_append_drop]
    rw [List.length_drop, hA_len]
    rw [show cap - amount - (l.length - (l.length - (cap - amount))) = 0
      from by omega]
    rw [List.drop_drop]
    rw [List.drop_eq_nil_of_le (show (l.drop i ++ l.take i).length
      ≤ l.length - (cap - amount) + (cap - amount) from by rw [hA_len]; omega)]
    rw [List.nil_append, List.drop_zero]
  have htakeR : (rotate_to_position l i (cap - amount)).take (cap - amount)
      = (l.drop i ++ l.take i).drop (l.length - (cap - amount)) := by
    rw [hR, List.take_append_eq_append_take]
    rw [List.length_drop, hA_len]
    rw [show cap - amount - (l.length - (l.length - (cap - amount))) = 0
      from by omega]
    rw [List.take_zero, List.append_nil]
    rw [List.take_of_length_le (show ((l.drop i ++ l.take i).drop
      (l.length - (cap - amount))).length ≤ cap - amount from by
        rw [List.length_drop, hA_len]; omega)]
  have hrotL : l.rotateLeft i = l.drop i ++ l.take i := by
    rw [rotateLeft_eq_drop_append_take, Nat.mod_eq_of_lt hil]
  rw [hshr, hpop, hdropR, htakeR, hrotL]
  refine ⟨rfl, rfl, ?_⟩
  rw [List.nil_append, List.length_reverse, List.length_take]
  rw [hA_len]
  omega

/-- C7 amended witness: concrete at-capacity buffer of five values with
index 2, shrunk by 2. -/
theorem c7_shrink_removes_oldest_returns_reversed_witness :
    (⟨[10, 20, 30, 40, 50], 5, 2⟩ : Varied Nat).index
      < (⟨[10, 20, 30, 40, 50], 5, 2⟩ : Varied Nat).list.length ∧
    (⟨[10, 20, 30, 40, 50], 5, 2⟩ : Varied Nat).list.length
      ≤ (⟨[10, 20, 30, 40, 50], 5, 2⟩ : Varied Nat).capacity ∧
    (⟨[10, 20, 30, 40, 50], 5, 2⟩ : Varied Nat).capacity - 2
      < (⟨[10, 20, 30, 40, 50], 5, 2⟩ : Varied Nat).list.length ∧
    ((Varied.shrink (⟨[10, 20, 30, 40, 50], 5, 2⟩ : Varied Nat) 2).1
      = ((([10, 20, 30, 40, 50] : List Nat).rotateLeft 2).take (5 - (5 - 2))).reverse ∧
     (Varied.shrink (⟨[10, 20, 30, 40, 50], 5, 2⟩ : Varied Nat) 2).2.list
      = (([10, 20, 30, 40, 50] : List Nat).rotateLeft 2).drop (5 - (5 - 2)) ∧
     (Varied.shrink (⟨[10, 20, 30, 40, 50], 5, 2⟩ : Varied Nat) 2).1.length
      = 5 - (5 - 2)) :=
  ⟨by decide, by decide, by decide,
   c7_shrink_removes_oldest_returns_reversed Nat ⟨[10, 20, 30, 40, 50], 5, 2⟩ 2
     (by decide) (by decide) (by decide)⟩

/-- Field keys of the Fixed (de)serialization (mod.rs lines 318-357). -/
inductive KeyField
  | list
  | next
  | oldest
  | stored
deriving Repr, DecidableEq

/-- Values the deserializer hands to the Fixed visitor: a sequence of
optional slots (for the list field) or an unsigned integer (for the three
cursor fields).  A requested type that does not match the value at hand is
a deserializer error, modelled as wrongType. -/
inductive FieldVal (T : Type)
  | vlist (l : List (Option T))
  | vnat (n : Nat)
deriving Repr, DecidableEq

/-- Errors raised by the Fixed visitor, mirroring the serde error calls of
mod.rs lines 373-444. -/
inductive DeError
  | invalidLength (n : Nat)
  | duplicateField (f : KeyField)
  | missingField (f : KeyField)
  | wrongType
deriving Repr, DecidableEq

/-- Failure test for a deserialization result. -/
def deFailed {E A : Type} : Except E A → Bool
  | .ok _ => false
  | .error _ => true

/-- Embedding of the field loop of FixedVisitor::visit_map (mod.rs lines
394-444): duplicate keys are rejected, the list payload must convert to an
array of exactly N slots, and at the end all four fields must be present. -/
def visit_map_loop (N : Nat) :
    List (KeyField × FieldVal T) → Option (List (Option T)) → Option Nat →
    Option Nat → Option Nat → Except DeError (Fixed T N)
  | [], list?, next?, oldest?, stored? =>
    match list? with
    | none => .error (.missingField .list)
    | some l =>
      match next? with
      | none => .error (.missingField .next)
      | some nx =>
        match oldest? with
        | none => .error (.missingField .oldest)
        | some od =>
          match stored? with
          | none => .error (.missingField .stored)
          | some st => .ok ⟨l, nx, od, st⟩
  | (k, v) :: rest, list?, next?, oldest?, stored? =>
    match k with
    | .list =>
      if list?.isSome then .error (.duplicateField .list)
      else
        match v with
        | .vlist l =>
          if l.length = N then visit_map_loop N rest (some l) next? oldest? stored?
          else .error (.invalidLength N)
        | .vnat _ => .error .wrongType
    | .next =>
      if next?.isSome then .error (.duplicateField .next)
      else
        match v with
        | .vnat n => visit_map_loop N rest list? (some n) oldest? stored?
        | .vlist _ => .error .wrongType
    | .oldest =>
      if oldest?.isSome then .error (.duplicateField .oldest)
      else
        match v with
        | .vnat n => visit_map_loop N rest list? next? (some n) stored?
        | .vlist _ => .error .wrongType
    | .stored =>
      if stored?.isSome then .error (.duplicateField .stored)
      else
        match v with
        | .vnat n => visit_map_loop N rest list? next? oldest? (some n)
        | .vlist _ => .error .wrongType

/-- Embedding of FixedVisitor::visit_map, starting with no field seen. -/
def visit_map (N : Nat) (entries : List (KeyField × FieldVal T)) :
    Except DeError (Fixed T N) :=
  visit_map_loop N entries none none none none

/-- Embedding of FixedVisitor::visit_seq (mod.rs lines 373-392): four
elements are read in order; a missing element is an invalid_length error
and the first element must convert to exactly N slots. -/
def visit_seq (N : Nat) : List (FieldVal T) → Except DeError (Fixed T N)
  | [] => .error (.invalidLength 0)
  | v0 :: rest0 =>
    match v0 with
    | .vnat _ => .error .wrongType
    | .vlist l =>
      if l.length = N then
        match rest0 with
        | [] => .error (.invalidLength 0)
        | v1 :: rest1 =>
          match v1 with
          | .vlist _ => .error .wrongType
          | .vnat nx =>
            match rest1 with
            | [] => .error (.invalidLength 0)
            | v2 :: rest2 =>
              match v2 with
              | .vlist _ => .error .wrongType
              | .vnat od =>
                match rest2 with
                | [] => .error (.invalidLength 0)
                | v3 :: _ =>
                  match v3 with
                  | .vlist _ => .error .wrongType
                  | .vnat st => .ok ⟨l, nx, od, st⟩
      else .error (.invalidLength N)

/-- Embedding of the Serialize implementation (mod.rs lines 292-307) as the
field-value pairs it emits, in emission order. -/
def serializeFields (b : Fixed T N) : List (KeyField × FieldVal T) :=
  [(.list, .vlist b.list), (.next, .vnat b.next),
   (.oldest, .vnat b.oldest), (.stored, .vnat b.stored)]

/-- The same serialized state as a plain sequence, as a seq-based format
(such as bincode) presents it to visit_seq. -/
def serializeSeq (b : Fixed T N) : List (FieldVal T) :=
  [.vlist b.list, .vnat b.next, .vnat b.oldest, .vnat b.stored]

theorem visit_map_loop_badlist (N : Nat) (l : List (Option T))
    (hlen : l.length ≠ N) :
    ∀ (entries : List (KeyField × FieldVal T)) (s1 : Option (List (Option T)))
      (s2 s3 s4 : Option Nat),
      (KeyField.list, FieldVal.vlist l) ∈ entries →
      deFailed (visit_map_loop N entries s1 s2 s3 s4) = true := by
  intro entries
  induction entries with
  | nil =>
      intro s1 s2 s3 s4 hmem
      cases hmem
  | cons e rest ih =>
      intro s1 s2 s3 s4 hmem
      rcases e with ⟨k, v⟩
      rcases List.mem_cons.mp hmem with heq | hmem2
      · rw [show k = KeyField.list from congrArg Prod.fst heq.symm,
          show v = FieldVal.vlist l from congrArg Prod.snd heq.symm]
        simp only [visit_map_loop]
        by_cases hs : s1.isSome
        · rw [if_pos hs]
          rfl
        · rw [if_neg hs, if_neg hlen]
          rfl
      · cases k <;> cases v <;> simp only [visit_map_loop] <;> split_ifs <;>
          first
            | rfl
            | exact ih _ _ _ _ hmem2

theorem visit_map_loop_missing (N : Nat) (f : KeyField) :
    ∀ (entries : List (KeyField × FieldVal T)) (s1 : Option (List (Option T)))
      (s2 s3 s4 : Option Nat),
      (∀ v, (f, v) ∉ entries) →
      (f = .list → s1 = none) → (f = .next → s2 = none) →
      (f = .oldest → s3 = none) → (f = .stored → s4 = none) →
      deFailed (visit_map_loop N entries s1 s2 s3 s4) = true := by
  intro entries
  induction entries with
  | nil =>
      intro s1 s2 s3 s4 habs h1 h2 h3 h4
      cases f <;> simp only [visit_map_loop]
      · rw [h1 rfl]
        rfl
      · cases s1 with
        | none => rfl
        | some l =>
            rw [h2 rfl]
            rfl
      · cases s1 with
        | none => rfl
        | some l =>
            cases s2 with
            | none => rfl
            | some nx =>
                rw [h3 rfl]
                rfl
      · cases s1 with
        | none => rfl
        | some l =>
            cases s2 with
            | none => rfl
            | some nx =>
                cases s3 with
                | none => rfl
                | some od =>
                    rw [h4 rfl]
                    rfl
  | cons e rest ih =>
      intro s1 s2 s3 s4 habs h1 h2 h3 h4
      rcases e with ⟨k, v⟩
      have habs2 : ∀ v2, (f, v2) ∉ rest := by
        intro v2 hmem
        exact habs v2 (List.mem_cons_of_mem _ hmem)
      have hkf : k ≠ f := by
        intro he
        exact habs v (he ▸ List.mem_cons_self _ _)
      cases k <;> cases v <;> simp only [visit_map_loop] <;> split_ifs <;>
        first
          | rfl
          | exact ih _ _ _ _ habs2
              (fun he => absurd he.symm hkf) h2 h3 h4
          | exact ih _ _ _ _ habs2 h1
              (fun he => absurd he.symm hkf) h3 h4
          | exact ih _ _ _ _ habs2 h1 h2
              (fun he => absurd he.symm hkf) h4
          | exact ih _ _ _ _ habs2 h1 h2 h3
              (fun he => absurd he.symm hkf)

theorem visit_seq_short (N : Nat) (input : List (FieldVal T))
    (h : input.length < 4) : deFailed (visit_seq N input) = true := by
  rcases input with _ | ⟨v0, rest0⟩
  · rfl
  rcases v0 with l | n
  · simp only [visit_seq]
    by_cases hl : l.length = N
    · rw [if_pos hl]
      rcases rest0 with _ | ⟨v1, rest1⟩
      · rfl
      rcases v1 with l1 | n1
      · rfl
      rcases rest1 with _ | ⟨v2, rest2⟩
      · rfl
      rcases v2 with l2 | n2
      · rfl
      rcases rest2 with _ | ⟨v3, rest3⟩
      · rfl
      exfalso
      simp only [List.length_cons] at h
      omega
    · rw [if_neg hl]
      rfl
  · rfl

/-- C8: deserializing the serialized state of a FixedBuffer through the map
visitor or the seq visitor reproduces the exact four-field state; any map
payload carrying a slot list whose length differs from N fails, any map
payload missing one of the four fields fails, a seq payload of fewer than
four elements fails, and a seq payload opening with a slot list of the
wrong length fails. -/
theorem c8_fixed_serde_roundtrip_and_rejection (T : Type) (N : Nat)
    (b : Fixed T N) (hb : b.list.length = N)
    (entries entries2 : List (KeyField × FieldVal T)) (l : List (Option T))
    (hmem : (KeyField.list, FieldVal.vlist l) ∈ entries) (hlen : l.length ≠ N)
    (f : KeyField) (habs : ∀ v, (f, v) ∉ entries2)
    (input : List (FieldVal T)) (hshort : input.length < 4)
    (l2 : List (Option T)) (rest : List (FieldVal T)) (hlen2 : l2.length ≠ N) :
    visit_map N (serializeFields b) = .ok b ∧
    deFailed (visit_map N entries) = true ∧
    deFailed (visit_map N entries2) = true ∧
    visit_seq N (serializeSeq b) = .ok b ∧
    deFailed (visit_seq N input) = true ∧
    deFailed (visit_seq N (FieldVal.vlist l2 :: rest)) = true := by
  refine ⟨?_, ?_, ?_, ?_, ?_, ?_⟩
  · simp only [visit_map, serializeFields, visit_map_loop, Option.isSome_none,
      Bool.false_eq_true, if_neg, if_pos hb]
    rfl
  · exact visit_map_loop_badlist N l hlen entries none none none none hmem
  · exact visit_map_loop_missing N f entries2 none none none none habs
      (fun _ => rfl) (fun _ => rfl) (fun _ => rfl) (fun _ => rfl)
  · simp only [visit_seq, serializeSeq, if_pos hb]
  · exact visit_seq_short N input hshort
  · simp only [visit_seq]
    rw [if_neg hlen2]
    rfl

/-- C8 witness: a concrete two-slot state round-trips through both visitors,
and concrete malformed payloads are rejected. -/
theorem c8_fixed_serde_roundtrip_and_rejection_witness :
    (⟨[some 1, none], 1, 0, 1⟩ : Fixed Nat 2).list.length = 2 ∧
    (KeyField.list, FieldVal.vlist [none]) ∈
      [(KeyField.list, FieldVal.vlist (T := Nat) [none])] ∧
    ([none] : List (Option Nat)).length ≠ 2 ∧
    ([.vnat 3] : List (FieldVal Nat)).length < 4 ∧
    ([] : List (Option Nat)).length ≠ 2 ∧
    (visit_map 2 (serializeFields (⟨[some 1, none], 1, 0, 1⟩ : Fixed Nat 2))
        = .ok ⟨[some 1, none], 1, 0, 1⟩ ∧
     deFailed (visit_map 2 [(KeyField.list, FieldVal.vlist (T := Nat) [none])])
        = true ∧
     deFailed (visit_map 2 [(KeyField.next, FieldVal.vnat (T := Nat) 0)]) = true ∧
     visit_seq 2 (serializeSeq (⟨[some 1, none], 1, 0, 1⟩ : Fixed Nat 2))
        = .ok ⟨[some 1, none], 1, 0, 1⟩ ∧
     deFailed (visit_seq 2 ([.vnat 3] : List (FieldVal Nat))) = true ∧
     deFailed (visit_seq 2 (FieldVal.vlist ([] : List (Option Nat)) :: [])) = true) :=
  ⟨by decide, by decide, by decide, by decide, by decide,
   c8_fixed_serde_roundtrip_and_rejection Nat 2 ⟨[some 1, none], 1, 0, 1⟩
     (by decide) [(KeyField.list, FieldVal.vlist [none])]
     [(KeyField.next, FieldVal.vnat 0)] [none] (by decide) (by decide)
     KeyField.list (fun v hv => by simp at hv) [.vnat 3] (by decide)
     [] [] (by decide)⟩

/-- Thread state for a client of RwVersioned::update (sync.rs lines
118-133): a program counter over the atomic actions of update and the local
new_version value.  The pc values: 0 acquire the count mutex, 1 read the
counter into new_version, 2 acquire the store write lock, 3 insert and
release the store lock, 4 increment the counter, 5 release the count mutex,
6 returned. -/
structure UpdThread where
  pc : Nat
  ver : Nat
deriving Repr, DecidableEq

/-- Shared state of one RwVersioned with two client threads A and B; each
lock records its holder (true for A). -/
structure UpdSys (T : Type) where
  count : Nat
  store : List (Nat × T)
  countLock : Option Bool
  storeLock : Option Bool
  tA : UpdThread
  tB : UpdThread
deriving Repr, DecidableEq

/-- Update of the stepping thread. -/
def UpdSys.setThread (s : UpdSys T) (who : Bool) (t : UpdThread) : UpdSys T :=
  if who then { s with tA := t } else { s with tB := t }

/-- One atomic step of thread who running update with value v, following
sync.rs lines 118-133; acquiring a held lock blocks, leaving the state
unchanged, and a finished thread does nothing. -/
def updStep (s : UpdSys T) (who : Bool) (v : T) : UpdSys T :=
  let t := if who then s.tA else s.tB
  if t.pc = 0 then
    if s.countLock = none then
      { s.setThread who { t with pc := 1 } with countLock := some who }
    else s
  else if t.pc = 1 then
    s.setThread who { pc := 2, ver := s.count }
  else if t.pc = 2 then
    if s.storeLock = none then
      { s.setThread who { t with pc := 3 } with storeLock := some who }
    else s
  else if t.pc = 3 then
    { s.setThread who { t with pc := 4 } with
        store := s.store ++ [(t.ver, v)], storeLock := none }
  else if t.pc = 4 then
    { s.setThread who { t with pc := 5 } with count := s.count + 1 }
  else if t.pc = 5 then
    { s.setThread who { t with pc := 6 } with countLock := none }
  else s

/-- Interleaved execution under a schedule: true schedules thread A (which
pushes vA), false schedules thread B (which pushes vB). -/
def updRun (vA vB : T) (s : UpdSys T) : List Bool → UpdSys T
  | [] => s
  | who :: rest => updRun vA vB (updStep s who (if who then vA else vB)) rest

/-- Both threads start before their update calls on the empty store. -/
def updInit : UpdSys T :=
  { count := 0, store := [], countLock := none, storeLock := none,
    tA := { pc := 0, ver := 0 }, tB := { pc := 0, ver := 0 } }

/-- Number of threads that have completed their update. -/
def updFinished (s : UpdSys T) : Nat :=
  (if s.tA.pc = 6 then 1 else 0) + (if s.tB.pc = 6 then 1 else 0)

/-- Invariant when nobody holds the count mutex: both threads are before or
after their whole call, the counter equals the number of finished threads,
and finished threads hold distinct versions below the counter. -/
def UpdNoneInv (s : UpdSys T) : Prop :=
  (s.tA.pc = 0 ∨ s.tA.pc = 6) ∧ (s.tB.pc = 0 ∨ s.tB.pc = 6) ∧
  s.storeLock = none ∧ s.count = updFinished s ∧
  (s.tA.pc = 6 → s.tA.ver < s.count) ∧
  (s.tB.pc = 6 → s.tB.ver < s.count) ∧
  (s.tA.pc = 6 → s.tB.pc = 6 → s.tA.ver ≠ s.tB.ver)

/-- Invariant while thread t holds the count mutex and o is the other
thread: o is blocked before its call or already finished, the store lock is
held exactly during the insert step, the counter has advanced only after
the increment step, and the holder read the current number of finished
threads as its version. -/
def UpdHolderInv (count : Nat) (storeLock : Option Bool) (me : Bool)
    (t o : UpdThread) (k : Nat) : Prop :=
  1 ≤ t.pc ∧ t.pc ≤ 5 ∧ (o.pc = 0 ∨ o.pc = 6) ∧
  (storeLock = if t.pc = 3 then some me else none) ∧
  (t.pc ≤ 4 → count = k) ∧ (t.pc = 5 → count = k + 1) ∧
  (2 ≤ t.pc → t.ver = k) ∧ (o.pc = 6 → o.ver < k)

/-- Global invariant of the two-thread update scenario. -/
def UpdInv (s : UpdSys T) : Prop :=
  s.tA.pc ≤ 6 ∧ s.tB.pc ≤ 6 ∧
  match s.countLock with
  | none => UpdNoneInv s
  | some true => UpdHolderInv s.count s.storeLock true s.tA s.tB (updFinished s)
  | some false => UpdHolderInv s.count s.storeLock false s.tB s.tA (updFinished s)

theorem updInv_init : UpdInv (updInit : UpdSys T) := by
  simp [UpdInv, updInit, UpdNoneInv, updFinished]

theorem updInv_step (s : UpdSys T) (who : Bool) (v : T) (h : UpdInv s) :
    UpdInv (updStep s who v) := by
  rcases s with ⟨count, store, cLock, sLock, ⟨pcA, verA⟩, ⟨pcB, verB⟩⟩
  obtain ⟨hA6, hB6, hmain⟩ := h
  dsimp only at hA6 hB6
  rcases cLock with _ | holder
  · dsimp only [UpdInv] at hmain
    obtain ⟨hA0, hB0, hsL, hcnt, hvA, hvB, hne⟩ := hmain
    dsimp only [updFinished] at hcnt hvA hvB hne
    try dsimp only at hsL
    subst hsL
    rcases hA0 with hA | hA <;> subst hA <;>
      rcases hB0 with hB | hB <;> subst hB <;> cases who <;>
      · simp only [updStep, UpdSys.setThread]
        try simp
        try simp only [UpdInv, UpdNoneInv, UpdHolderInv, updFinished]
        try simp
        all_goals try simp at hcnt hvA hvB hne
        all_goals omega
  · rcases holder with _ | _
    · dsimp only [UpdInv, UpdHolderInv] at hmain
      obtain ⟨hp1, hp5, hoA, hsL, hc4, hc5, hver, hovr⟩ := hmain
      dsimp only [updFinished] at hc4 hc5 hver hovr
      try dsimp only at hsL hp1 hp5 hoA
      rcases hoA with hA | hA <;> subst hA <;>
        interval_cases pcB <;> subst hsL <;> cases who <;>
        · simp only [updStep, UpdSys.setThread]
          try simp
          try simp only [UpdInv, UpdNoneInv, UpdHolderInv, updFinished]
          try simp
          all_goals try simp at hc4 hc5 hver hovr
          all_goals omega
    · dsimp only [UpdInv, UpdHolderInv] at hmain
      obtain ⟨hp1, hp5, hoB, hsL, hc4, hc5, hver, hovr⟩ := hmain
      dsimp only [updFinished] at hc4 hc5 hver hovr
      try dsimp only at hsL hp1 hp5 hoB
      rcases hoB with hB | hB <;> subst hB <;>
        interval_cases pcA <;> subst hsL <;> cases who <;>
        · simp only [updStep, UpdSys.setThread]
          try simp
          try simp only [UpdInv, UpdNoneInv, UpdHolderInv, updFinished]
          try simp
          all_goals try simp at hc4 hc5 hver hovr
          all_goals omega

theorem updInv_run (vA vB : T) (sched : List Bool) :
    UpdInv (updRun vA vB updInit sched) := by
  suffices h : ∀ (sched : List Bool) (s : UpdSys T), UpdInv s →
      UpdInv (updRun vA vB s sched) from h sched updInit updInv_init
  intro sched
  induction sched with
  | nil => intro s hs; exact hs
  | cons who rest ih =>
      intro s hs
      exact ih _ (updInv_step s who _ hs)

/-- C10: under every interleaving of the atomic actions of two concurrent
RwVersioned::update calls on an empty store, if both calls complete then the
two returned versions are 0 and 1 in some order and never equal: the count
mutex is held across the read of the counter, the insert, and the
increment, so the updates serialize. -/
theorem c10_concurrent_updates_distinct_versions (T : Type) (vA vB : T)
    (sched : List Bool)
    (hA : (updRun vA vB updInit sched).tA.pc = 6)
    (hB : (updRun vA vB updInit sched).tB.pc = 6) :
    ((updRun vA vB updInit sched).tA.ver = 0 ∧
     (updRun vA vB updInit sched).tB.ver = 1) ∨
    ((updRun vA vB updInit sched).tA.ver = 1 ∧
     (updRun vA vB updInit sched).tB.ver = 0) := by
  obtain ⟨h6A, h6B, hmain⟩ := updInv_run (T := T) vA vB sched
  rcases hcl : (updRun vA vB updInit sched).countLock with _ | holder
  · rw [hcl] at hmain
    dsimp only at hmain
    obtain ⟨hA0, hB0, hsL, hcnt, hvA2, hvB2, hne⟩ := hmain
    have h1 := hvA2 hA
    have h2 := hvB2 hB
    have h3 := hne hA hB
    have hc2 : (updRun vA vB updInit sched).count = 2 := by
      rw [hcnt]
      unfold updFinished
      rw [hA, hB]
      norm_num
    omega
  · exfalso
    rw [hcl] at hmain
    rcases holder with _ | _ <;> dsimp only at hmain
    · obtain ⟨hp1, hp5, hrest⟩ := hmain
      omega
    · obtain ⟨hp1, hp5, hrest⟩ := hmain
      omega

/-- C10 witness: the schedule that runs thread A's whole update and then
thread B's; both finish and the versions are 0 and 1. -/
theorem c10_concurrent_updates_distinct_versions_witness :
    (updRun (10 : Nat) 20 updInit
        [true, true, true, true, true, true,
         false, false, false, false, false, false]).tA.pc = 6 ∧
    (updRun (10 : Nat) 20 updInit
        [true, true, true, true, true, true,
         false, false, false, false, false, false]).tB.pc = 6 ∧
    (((updRun (10 : Nat) 20 updInit
        [true, true, true, true, true, true,
         false, false, false, false, false, false]).tA.ver = 0 ∧
      (updRun (10 : Nat) 20 updInit
        [true, true, true, true, true, true,
         false, false, false, false, false, false]).tB.ver = 1) ∨
     ((updRun (10 : Nat) 20 updInit
        [true, true, true, true, true, true,
         false, false, false, false, false, false]).tA.ver = 1 ∧
      (updRun (10 : Nat) 20 updInit
        [true, true, true, true, true, true,
         false, false, false, false, false, false]).tB.ver = 0)) :=
  ⟨by decide, by decide,
   c10_concurrent_updates_distinct_versions Nat 10 20
     [true, true, true, true, true, true,
      false, false, false, false, false, false] (by decide) (by decide)⟩
